import Mathlib

/-!
Verification development for the simplefs repository (package `fs`).

The Go source is shallowly embedded: paths are modelled as lists of
segments (the pieces between `/` separators), byte slices as `List Nat`,
maps as association lists, and the host filesystem touched by the facade
as explicit record state.  Each definition mirrors one function of the
source.
-/

namespace SimpleFS

/-! ## Path resolver (path.go and the facade fullPath)

Go `filepath.Clean`, `filepath.Join` and `filepath.Rel` are lexical
functions on `/`-separated segment lists.  A raw path string is parsed
into an absolute-flag plus its non-empty segments; `filepath.Clean` is
split into its behaviour on rooted paths (`cleanAbs`, where a leading
`..` is dropped because `/..` equals `/`) and on relative paths
(`cleanRel`, where leading `..` segments are kept). -/

/-- One step of Go filepath.Clean on a rooted path: `.` is dropped,
`..` removes the previous segment (or nothing at the root), any other
segment is kept. -/
def cleanAbsStep (acc : List String) (seg : String) : List String :=
  if seg = "." then acc
  else if seg = ".." then acc.dropLast
  else acc ++ [seg]

/-- Go filepath.Clean restricted to rooted (absolute) paths, on segment
lists. -/
def cleanAbs (segs : List String) : List String :=
  segs.foldl cleanAbsStep []

/-- One step of Go filepath.Clean on a relative path: as `cleanAbsStep`,
except that `..` segments that cannot be cancelled are kept. -/
def cleanRelStep (acc : List String) (seg : String) : List String :=
  if seg = "." then acc
  else if seg = ".." then
    match acc.getLast? with
    | none => [".."]
    | some t => if t = ".." then acc ++ [".."] else acc.dropLast
  else acc ++ [seg]

/-- Go filepath.Clean restricted to relative paths, on segment lists. -/
def cleanRel (segs : List String) : List String :=
  segs.foldl cleanRelStep []

/-- Go filepath.Rel for two cleaned rooted paths: strip the common
leading segments, then one `..` per remaining base segment followed by
the remaining target segments (the empty result renders as `.`). -/
def relSegs : List String → List String → List String
  | [], f => f
  | r, [] => r.map (fun _ => "..")
  | r0 :: rs, f0 :: fs =>
    if r0 = f0 then relSegs rs fs
    else (r0 :: rs).map (fun _ => "..") ++ f0 :: fs

/-- Error message of `fullPath` / `IsValidPath` when a path escapes. -/
def escapeErr : String := "path attempts to escape the root directory"

/-- The joined path computed inside `fullPath`:
`filepath.Join(fs.rootPath, filepath.Clean(path))` on segment lists
(`Join` itself cleans the concatenation). -/
def joinedPath (rootPath : List String) (isAbs : Bool) (segs : List String) :
    List String :=
  cleanAbs (rootPath ++ (if isAbs then cleanAbs segs else cleanRel segs))

/-- SimpleFS.fullPath: clean the input, join with the root, compute the
relative path from the root back to the joined result and reject when it
is `..` or starts with `../`.  A leading `..` segment of the relative
path renders exactly those two string shapes, so the Go guard
`rel == ".." or HasPrefix(rel, "../")` is the match on a leading `".."`
segment. -/
def fullPath (rootPath : List String) (isAbs : Bool) (segs : List String) :
    Except String (List String) :=
  match relSegs rootPath (joinedPath rootPath isAbs segs) with
  | ".." :: _ => .error escapeErr
  | _ => .ok (joinedPath rootPath isAbs segs)

/-- Splits a character list at `/` into raw (possibly empty) segments. -/
def splitSegsAux : List Char → List Char → List String
  | [], cur => [String.mk cur.reverse]
  | c :: cs, cur =>
    if c = '/' then String.mk cur.reverse :: splitSegsAux cs []
    else splitSegsAux cs (c :: cur)

/-- Parses a raw path string into its non-empty `/`-separated segments. -/
def parseSegs (s : String) : List String :=
  (splitSegsAux s.toList []).filter (fun t => t != "")

/-- Whether a raw path string is absolute (starts with `/`). -/
def parseIsAbs (s : String) : Bool :=
  match s.toList with
  | '/' :: _ => true
  | _ => false

/-- SimpleFS.fullPath on a raw path string. -/
def fullPathStr (rootPath : List String) (s : String) :
    Except String (List String) :=
  fullPath rootPath (parseIsAbs s) (parseSegs s)

/-- The joined path of `fullPathStr` before the escape check. -/
def joinedStr (rootPath : List String) (s : String) : List String :=
  joinedPath rootPath (parseIsAbs s) (parseSegs s)

/-- SimpleFS.IsValidPath (path.go): reject the empty string, resolve via
fullPath, then re-check the relative path from the root. -/
def IsValidPath (rootPath : List String) (s : String) : Bool :=
  if s = "" then false
  else
    match fullPathStr rootPath s with
    | .error _ => false
    | .ok full =>
      match relSegs rootPath full with
      | ".." :: _ => false
      | _ => true

/-- `f` lies under `r`: the segments of `r` are an initial run of the
segments of `f` (textual containment of the rendered paths). -/
def isUnder (r f : List String) : Prop := f.take r.length = r

instance (r f : List String) : Decidable (isUnder r f) := by
  unfold isUnder; infer_instance

instance instDecEqExcept {ε α : Type} [DecidableEq ε] [DecidableEq α] :
    DecidableEq (Except ε α) := fun x y => by
  cases x with
  | error e =>
    cases y with
    | error f => exact decidable_of_iff (e = f) (by simp)
    | ok b => exact isFalse (by simp)
  | ok a =>
    cases y with
    | error f => exact isFalse (by simp)
    | ok b => exact decidable_of_iff (a = b) (by simp)

theorem mem_of_mem_dropLast {α : Type} {a : α} :
    ∀ {l : List α}, a ∈ l.dropLast → a ∈ l
  | [], h => by simp at h
  | [_], h => by simp [List.dropLast] at h
  | x :: y :: t, h => by
    have h2 : a ∈ x :: (y :: t).dropLast := h
    rcases List.mem_cons.mp h2 with h1 | h3
    · exact h1 ▸ List.mem_cons_self x _
    · exact List.mem_cons_of_mem x (mem_of_mem_dropLast h3)

/-- Output segments of the absolute cleaning fold contain no dot
segments, provided the accumulator contains none. -/
theorem cleanAbs_foldl_noDots :
    ∀ (l acc : List String),
      (∀ s ∈ acc, s ≠ "." ∧ s ≠ "..") →
      ∀ s ∈ l.foldl cleanAbsStep acc, s ≠ "." ∧ s ≠ ".."
  | [], acc, hacc => by simpa using hacc
  | c :: cs, acc, hacc => by
    intro s hs
    rw [List.foldl_cons] at hs
    refine cleanAbs_foldl_noDots cs (cleanAbsStep acc c) ?_ s hs
    intro t ht
    unfold cleanAbsStep at ht
    by_cases hdot : c = "."
    · exact hacc t (by simpa [hdot] using ht)
    · by_cases hdd : c = ".."
      · rw [if_neg hdot, if_pos hdd] at ht
        exact hacc t (mem_of_mem_dropLast ht)
      · rw [if_neg hdot, if_neg hdd] at ht
        rcases List.mem_append.mp ht with h1 | h2
        · exact hacc t h1
        · have ht2 : t = c := by simpa using h2
          exact ht2 ▸ ⟨hdot, hdd⟩

theorem cleanAbs_noDots (l : List String) :
    ∀ s ∈ cleanAbs l, s ≠ "." ∧ s ≠ ".." :=
  cleanAbs_foldl_noDots l [] (by simp)

/-- The relative path from `r` to `f` starts with a `..` segment exactly
when `r` is not an initial run of `f`, for any `f` free of `..`
segments. -/
theorem relSegs_head_dotdot :
    ∀ (r f : List String), (∀ s ∈ f, s ≠ "..") →
      ((relSegs r f).head? = some ".." ↔ ¬ isUnder r f)
  | [], f, hf => by
    constructor
    · intro h
      cases f with
      | nil => simp [relSegs] at h
      | cons f0 fs =>
        exfalso
        refine hf f0 (List.mem_cons_self f0 fs) ?_
        simpa [relSegs] using h
    · intro h
      exact absurd (show isUnder [] f by simp [isUnder]) h
  | r0 :: rs, [], _ => by
    constructor
    · intro _
      intro hc
      unfold isUnder at hc
      simp at hc
    · intro _
      simp [relSegs]
  | r0 :: rs, f0 :: fs, hf => by
    rcases eq_or_ne r0 f0 with heq | hne
    · subst heq
      have ih := relSegs_head_dotdot rs fs
        (fun s hs => hf s (List.mem_cons_of_mem _ hs))
      have hstep : relSegs (r0 :: rs) (r0 :: fs) = relSegs rs fs := by
        simp [relSegs]
      rw [hstep, ih]
      unfold isUnder
      simp [List.take_succ_cons]
    · have hstep : relSegs (r0 :: rs) (f0 :: fs) =
          (r0 :: rs).map (fun _ => "..") ++ f0 :: fs := by
        simp [relSegs, hne]
      rw [hstep]
      constructor
      · intro _ hc
        unfold isUnder at hc
        rw [List.length_cons, List.take_succ_cons] at hc
        have hheads := congrArg List.head? hc
        simp only [List.head?_cons, Option.some.injEq] at hheads
        exact hne hheads.symm
      · intro _
        simp

/-- C1, path confinement.  For every raw input path: `fullPath` rejects
with the escape error exactly when the lexically joined path does not
lie under the root; every accepted input returns exactly the joined
path, which lies under (is textually prefixed by) the root; and
`IsValidPath` accepts a non-empty input exactly when `fullPath` accepts
it (and always rejects the empty string). -/
theorem fullPath_confinement (rootPath : List String) (s : String) :
    (fullPathStr rootPath s = .error escapeErr ↔
      ¬ isUnder rootPath (joinedStr rootPath s))
    ∧ (∀ full, fullPathStr rootPath s = .ok full →
        full = joinedStr rootPath s ∧ isUnder rootPath full)
    ∧ (s ≠ "" → (IsValidPath rootPath s = true ↔
        ∃ full, fullPathStr rootPath s = .ok full))
    ∧ IsValidPath rootPath "" = false := by
  have hnodots : ∀ t ∈ joinedStr rootPath s, t ≠ ".." := by
    intro t ht
    exact (cleanAbs_noDots _ t ht).2
  have hiff := relSegs_head_dotdot rootPath (joinedStr rootPath s) hnodots
  have hmain : fullPathStr rootPath s =
      (match relSegs rootPath (joinedStr rootPath s) with
        | ".." :: _ => Except.error escapeErr
        | _ => Except.ok (joinedStr rootPath s)) := rfl
  cases hshape : relSegs rootPath (joinedStr rootPath s) with
  | nil =>
    rw [hshape] at hmain hiff
    have hacc : fullPathStr rootPath s = .ok (joinedStr rootPath s) := hmain
    have hund : isUnder rootPath (joinedStr rootPath s) := by
      by_contra hnot
      simpa using hiff.mpr hnot
    refine ⟨?_, ?_, ?_, rfl⟩
    · rw [hacc]
      simp [hund]
    · intro full hfull
      rw [hacc] at hfull
      have : full = joinedStr rootPath s := by
        simpa using hfull.symm
      exact ⟨this, this ▸ hund⟩
    · intro hs
      unfold IsValidPath
      rw [if_neg hs]
      simp only [hacc, hshape]
      constructor
      · intro _
        exact ⟨joinedStr rootPath s, rfl⟩
      · intro _
        trivial
  | cons a t =>
    rw [hshape] at hmain hiff
    by_cases ha : a = ".."
    · subst ha
      have herr : fullPathStr rootPath s = .error escapeErr := hmain
      have hnot : ¬ isUnder rootPath (joinedStr rootPath s) :=
        hiff.mp (by simp)
      refine ⟨?_, ?_, ?_, rfl⟩
      · rw [herr]
        simp [hnot]
      · intro full hfull
        rw [herr] at hfull
        exact absurd hfull (by simp)
      · intro hs
        unfold IsValidPath
        rw [if_neg hs]
        simp only [herr]
        constructor
        · intro hcontra
          exact absurd hcontra (by simp)
        · intro hcontra
          rcases hcontra with ⟨full, hfull⟩
          exact absurd hfull (by simp)
    · have hacc : fullPathStr rootPath s = .ok (joinedStr rootPath s) := by
        rw [hmain]
        have : (match (a :: t : List String) with
            | ".." :: _ => Except.error (α := List String) escapeErr
            | _ => Except.ok (joinedStr rootPath s)) =
            Except.ok (joinedStr rootPath s) := by
          cases hcmp : decide (a = "..") with
          | false =>
            simp at hcmp
            simp [hcmp]
          | true =>
            exact absurd (of_decide_eq_true hcmp) ha
        exact this
      have hund : isUnder rootPath (joinedStr rootPath s) := by
        by_contra hnot
        have := hiff.mpr hnot
        simp at this
        exact ha this
      refine ⟨?_, ?_, ?_, rfl⟩
      · rw [hacc]
        simp [hund]
      · intro full hfull
        rw [hacc] at hfull
        have hfe : full = joinedStr rootPath s := by
          simpa using hfull.symm
        exact ⟨hfe, hfe ▸ hund⟩
      · intro hs
        unfold IsValidPath
        rw [if_neg hs]
        simp only [hacc, hshape]
        constructor
        · intro _
          exact ⟨joinedStr rootPath s, rfl⟩
        · intro _
          cases hcmp : decide (a = "..") with
          | false =>
            simp at hcmp
            simp [hcmp]
          | true =>
            exact absurd (of_decide_eq_true hcmp) ha

/-- C1 witness: a traversal that escapes the root is rejected with the
escape error, an in-root input resolves under the root, and
`IsValidPath` accepts it. -/
theorem fullPath_confinement_app :
    fullPathStr ["data"] "../etc/passwd" = Except.error escapeErr
    ∧ isUnder ["data"] ["data", "b", "c.txt"]
    ∧ IsValidPath ["data"] "b/c.txt" = true :=
  ⟨((fullPath_confinement ["data"] "../etc/passwd").1).mpr (by decide),
   ((fullPath_confinement ["data"] "a/../b/c.txt").2.1 ["data", "b", "c.txt"]
      (by decide)).2,
   ((fullPath_confinement ["data"] "b/c.txt").2.2.1 (by decide)).mpr
      ⟨["data", "b", "c.txt"], by decide⟩⟩

/-! ## Per-path reader/writer locks, as single-thread lock traces

Every facade operation takes per-path `sync.RWMutex` locks (created by
`getFileLock`) and the journal takes its own `sync.Mutex` inside
`Journal.Log` and `Journal.Recover`.  A Go mutex is not reentrant, so a
single goroutine that acquires a lock it already holds blocks forever.
We model the sequence of lock operations an execution performs as a
trace and run it in a single thread: reaching an acquisition that cannot
proceed yields `none` (the goroutine is blocked forever, since no other
thread exists to release the lock). -/

inductive LockSt where
  | free
  | readers (n : Nat)
  | writer
deriving DecidableEq, Repr

inductive LAct where
  | lk (p : String)
  | unlk (p : String)
  | rlk (p : String)
  | runlk (p : String)
deriving DecidableEq, Repr

def LEnv : Type := String → LockSt

def freeEnv : LEnv := fun _ => .free

def updEnv (env : LEnv) (p : String) (s : LockSt) : LEnv :=
  fun q => if q = p then s else env q

/-- Runs a lock trace in a single thread; `none` means the thread
blocked (or misused an unlock) and the operation never completes. -/
def runTrace : List LAct → LEnv → Option LEnv
  | [], env => some env
  | .lk p :: rest, env =>
    match env p with
    | .free => runTrace rest (updEnv env p .writer)
    | _ => none
  | .unlk p :: rest, env =>
    match env p with
    | .writer => runTrace rest (updEnv env p .free)
    | _ => none
  | .rlk p :: rest, env =>
    match env p with
    | .free => runTrace rest (updEnv env p (.readers 1))
    | .readers n => runTrace rest (updEnv env p (.readers (n + 1)))
    | .writer => none
  | .runlk p :: rest, env =>
    match env p with
    | .readers 1 => runTrace rest (updEnv env p .free)
    | .readers (n + 2) => runTrace rest (updEnv env p (.readers (n + 1)))
    | _ => none

/-- Lock trace of SimpleFS.ReadFile on path `p`: RLock, read, RUnlock. -/
def readFileTrace (p : String) : List LAct := [.rlk p, .runlk p]

/-- Lock trace of Journal.Log: the journal mutex, modelled as the lock
with the dedicated key `jmu`. -/
def logTrace (jmu : String) : List LAct := [.lk jmu, .unlk jmu]

/-- Lock trace of SimpleFS.WriteFileWithMode on path `p`: write-lock the
path; when versioning is enabled and the target exists, createVersion
calls ReadFile on the same path; when journaling is enabled, Journal.Log
runs; then the write happens and the deferred unlock fires. -/
def writeFileTrace (jmu p : String) (journaling versioningAndExists : Bool) :
    List LAct :=
  [.lk p]
  ++ (if versioningAndExists then readFileTrace p else [])
  ++ (if journaling then logTrace jmu else [])
  ++ [.unlk p]

/-- Lock trace of SimpleFS.DeleteFile: write-lock the path and its
parent directory; when versioning is enabled, createVersion calls
ReadFile on the path; journal; remove; deferred unlocks. -/
def deleteFileTrace (jmu p parent : String) (journaling versioning : Bool) :
    List LAct :=
  [.lk p, .lk parent]
  ++ (if versioning then readFileTrace p else [])
  ++ (if journaling then logTrace jmu else [])
  ++ [.unlk parent, .unlk p]

/-- Lock trace of SimpleFS.MoveFile: write-lock source, destination and
both parent directories; version an existing destination (ReadFile on
dst); when journaling, log the source deletion, call ReadFile on the
source, and log the destination write; rename; deferred unlocks. -/
def moveFileTrace (jmu src dst srcDir dstDir : String)
    (journaling versioningAndDstExists : Bool) : List LAct :=
  [.lk src, .lk dst, .lk srcDir, .lk dstDir]
  ++ (if versioningAndDstExists then readFileTrace dst else [])
  ++ (if journaling then logTrace jmu ++ readFileTrace src ++ logTrace jmu
      else [])
  ++ [.unlk dstDir, .unlk srcDir, .unlk dst, .unlk src]

/-- Lock trace of Journal.Recover replaying a single retained `write`
entry: Recover locks the journal mutex, then calls
SimpleFS.WriteFileWithMode (journaling enabled, target absent), and
finally would unlock the journal mutex. -/
def recoverWriteTrace (jmu p : String) : List LAct :=
  .lk jmu :: writeFileTrace jmu p true false ++ [.unlk jmu]

/-- C10, self-deadlock of versioned and journaled mutations.  With
versioning enabled and the target existing, WriteFileWithMode and
DeleteFile block forever (createVersion re-enters the held write lock
via ReadFile); with journaling enabled, MoveFile blocks forever
(ReadFile on the source is called under the source write lock).  All
three traces are run from an all-free lock table. -/
theorem mutation_self_deadlock (jmu p parent src dst srcDir dstDir : String)
    (hpp : parent ≠ p) (hds : dst ≠ src)
    (hsd1 : srcDir ≠ src) (hsd2 : srcDir ≠ dst)
    (hdd1 : dstDir ≠ src) (hdd2 : dstDir ≠ dst) (hdd3 : dstDir ≠ srcDir)
    (hj1 : jmu ≠ src) (hj2 : jmu ≠ dst) (hj3 : jmu ≠ srcDir)
    (hj4 : jmu ≠ dstDir) :
    runTrace (writeFileTrace jmu p true true) freeEnv = none
    ∧ runTrace (deleteFileTrace jmu p parent true true) freeEnv = none
    ∧ runTrace (moveFileTrace jmu src dst srcDir dstDir true false) freeEnv
        = none := by
  refine ⟨?_, ?_, ?_⟩
  · simp [writeFileTrace, readFileTrace, logTrace, runTrace, updEnv, freeEnv]
  · simp [deleteFileTrace, readFileTrace, logTrace, runTrace, updEnv, freeEnv,
      hpp, Ne.symm hpp]
  · simp [moveFileTrace, readFileTrace, logTrace, runTrace, updEnv, freeEnv,
      hds, Ne.symm hds, hsd1, Ne.symm hsd1, hsd2, Ne.symm hsd2,
      hdd1, Ne.symm hdd1, hdd2, Ne.symm hdd2, hdd3, Ne.symm hdd3,
      hj1, Ne.symm hj1, hj2, Ne.symm hj2, hj3, Ne.symm hj3,
      hj4, Ne.symm hj4]

/-- C10 witness: the three deadlocks at concrete paths. -/
theorem mutation_self_deadlock_app :
    runTrace (writeFileTrace "jmu" "/r/a" true true) freeEnv = none
    ∧ runTrace (deleteFileTrace "jmu" "/r/a" "/r" true true) freeEnv = none
    ∧ runTrace (moveFileTrace "jmu" "/r/a" "/r/b" "/r" "/r/d" true false)
        freeEnv = none :=
  mutation_self_deadlock "jmu" "/r/a" "/r" "/r/a" "/r/b" "/r" "/r/d"
    (by decide) (by decide) (by decide) (by decide) (by decide) (by decide)
    (by decide) (by decide) (by decide) (by decide) (by decide)

/-- C2, journal recovery.  Journal.Recover holds the journal mutex for
the whole recovery and replays retained entries through the facade
primitives; each of those primitives calls Journal.Log on the same
journal, which locks the same non-reentrant mutex, so recovery blocks
forever on the first replayed entry (here: a single retained `write`
entry for a path that does not collide with the journal key). -/
theorem recover_replay_deadlock (jmu p : String) (h : p ≠ jmu) :
    runTrace (recoverWriteTrace jmu p) freeEnv = none := by
  simp [recoverWriteTrace, writeFileTrace, readFileTrace, logTrace, runTrace,
    updEnv, freeEnv, h, Ne.symm h]

/-- C2 witness: the recovery deadlock at a concrete path. -/
theorem recover_replay_deadlock_app :
    runTrace (recoverWriteTrace "jmu" "/r/a.txt") freeEnv = none :=
  recover_replay_deadlock "jmu" "/r/a.txt" (by decide)

/-! ## Explicit lock manager (ExplicitLockManager) -/

inductive ELockType where
  | read
  | write
deriving DecidableEq, Repr

/-- LockInfo of the explicit lock manager. -/
structure ELockInfo where
  path : String
  type : ELockType
  owner : String
  createdAt : Nat
  timeout : Nat
deriving DecidableEq, Repr

/-- Association-list lookup, modelling a Go map read. -/
def lookupBy {κ α : Type} [DecidableEq κ] : List (κ × α) → κ → Option α
  | [], _ => none
  | (k, v) :: rest, key => if key = k then some v else lookupBy rest key

/-- Association-list insert-or-replace, modelling a Go map write. -/
def setBy {κ α : Type} [DecidableEq κ] : List (κ × α) → κ → α → List (κ × α)
  | [], key, v => [(key, v)]
  | (k, w) :: rest, key, v =>
    if key = k then (key, v) :: rest else (k, w) :: setBy rest key v

/-- Association-list delete, modelling a Go map delete. -/
def removeBy {κ α : Type} [DecidableEq κ] : List (κ × α) → κ → List (κ × α)
  | [], _ => []
  | (k, w) :: rest, key =>
    if key = k then removeBy rest key else (k, w) :: removeBy rest key

theorem lookupBy_setBy_self {κ α : Type} [DecidableEq κ]
    (m : List (κ × α)) (k : κ) (v : α) :
    lookupBy (setBy m k v) k = some v := by
  induction m with
  | nil => simp [setBy, lookupBy]
  | cons hd tl ih =>
    obtain ⟨k0, v0⟩ := hd
    by_cases h : k = k0
    · simp [setBy, lookupBy, h]
    · simp [setBy, lookupBy, h, ih]

theorem lookupBy_setBy_ne {κ α : Type} [DecidableEq κ]
    (m : List (κ × α)) (k : κ) (v : α) (q : κ) (h : q ≠ k) :
    lookupBy (setBy m k v) q = lookupBy m q := by
  induction m with
  | nil => simp [setBy, lookupBy, h]
  | cons hd tl ih =>
    obtain ⟨k0, v0⟩ := hd
    by_cases h0 : k = k0
    · subst h0
      simp [setBy, lookupBy, h]
    · by_cases hq : q = k0
      · simp [setBy, lookupBy, h0, hq]
      · simp [setBy, lookupBy, h0, hq, ih]

theorem lookupBy_removeBy_self {κ α : Type} [DecidableEq κ]
    (m : List (κ × α)) (k : κ) :
    lookupBy (removeBy m k) k = none := by
  induction m with
  | nil => simp [removeBy, lookupBy]
  | cons hd tl ih =>
    obtain ⟨k0, v0⟩ := hd
    by_cases h : k = k0
    · subst h
      simpa [removeBy] using ih
    · simp [removeBy, lookupBy, h, ih]

theorem lookupBy_removeBy_ne {κ α : Type} [DecidableEq κ]
    (m : List (κ × α)) (k : κ) (q : κ) (h : q ≠ k) :
    lookupBy (removeBy m k) q = lookupBy m q := by
  induction m with
  | nil => simp [removeBy]
  | cons hd tl ih =>
    obtain ⟨k0, v0⟩ := hd
    by_cases h0 : k = k0
    · subst h0
      simp [removeBy, lookupBy, h, ih]
    · by_cases hq : q = k0
      · simp [removeBy, lookupBy, h0, hq]
      · simp [removeBy, lookupBy, h0, hq, ih]

/-- ExplicitLockManager.AcquireLock.  The Go code checks, inside the
existing-entry branch: Write lock held means reject; Read held and Read
requested means grant, overwriting the single table slot; Read held and
Write requested means reject.  With no entry the lock is granted. -/
def AcquireLock (locks : List (String × ELockInfo)) (path owner : String)
    (lockType : ELockType) (timeout now : Nat) :
    Except String ELockInfo × List (String × ELockInfo) :=
  match lookupBy locks path with
  | some existing =>
    if existing.type = .write then
      (.error ("path is write-locked by " ++ existing.owner), locks)
    else if lockType = .read then
      let lock : ELockInfo := ⟨path, .read, owner, now, timeout⟩
      (.ok lock, setBy locks path lock)
    else
      (.error ("path is read-locked by " ++ existing.owner), locks)
  | none =>
    let lock : ELockInfo := ⟨path, lockType, owner, now, timeout⟩
    (.ok lock, setBy locks path lock)

/-- ExplicitLockManager.ReleaseLock over the lock table and the waiter
table; the fourth component is the list of waiters woken (all the
channels closed).  Errors leave both tables unchanged and wake
nobody. -/
def ReleaseLock (locks : List (String × ELockInfo))
    (waiters : List (String × List Nat)) (path owner : String) :
    Except String Unit × List (String × ELockInfo)
      × List (String × List Nat) × List Nat :=
  match lookupBy locks path with
  | none => (.error ("no lock found for path " ++ path), locks, waiters, [])
  | some lock =>
    if lock.owner ≠ owner then
      (.error ("lock is owned by " ++ lock.owner ++ ", not " ++ owner),
        locks, waiters, [])
    else
      (.ok (), removeBy locks path, removeBy waiters path,
        (lookupBy waiters path).getD [])

/-- Expiry test of CleanupExpiredLocks:
`lock.Timeout > 0 and now.Sub(lock.CreatedAt) > lock.Timeout`. -/
def lockExpired (now : Nat) (lock : ELockInfo) : Bool :=
  decide (0 < lock.timeout) && decide (lock.timeout < now - lock.createdAt)

/-- ExplicitLockManager.CleanupExpiredLocks: sweep the table, remove
every expired lock, and wake (close) the waiters of each removed path;
returns the new lock table, the new waiter table and the woken
waiters. -/
def CleanupExpiredLocks (now : Nat) (locks : List (String × ELockInfo))
    (waiters : List (String × List Nat)) :
    List (String × ELockInfo) × List (String × List Nat) × List Nat :=
  let expiredPaths :=
    (locks.filter (fun e => lockExpired now e.2)).map (fun e => e.1)
  (locks.filter (fun e => !lockExpired now e.2),
   waiters.filter (fun w => !(decide (w.1 ∈ expiredPaths))),
   (waiters.filter (fun w => decide (w.1 ∈ expiredPaths))).flatMap
     (fun w => w.2))

/-- C6, explicit lock acquisition rules: grant on no entry; reject any
request against a held Write lock; Read over Read replaces the single
table entry with a record carrying the new owner and timestamp (other
paths untouched, no reader counting); reject Write over Read. -/
theorem AcquireLock_rules (locks : List (String × ELockInfo))
    (path owner : String) (lockType : ELockType) (timeout now : Nat) :
    (lookupBy locks path = none →
      AcquireLock locks path owner lockType timeout now =
        (.ok ⟨path, lockType, owner, now, timeout⟩,
          setBy locks path ⟨path, lockType, owner, now, timeout⟩))
    ∧ (∀ ex, lookupBy locks path = some ex → ex.type = .write →
        AcquireLock locks path owner lockType timeout now =
          (.error ("path is write-locked by " ++ ex.owner), locks))
    ∧ (∀ ex, lookupBy locks path = some ex → ex.type = .read →
        lockType = .read →
        AcquireLock locks path owner lockType timeout now =
          (.ok ⟨path, .read, owner, now, timeout⟩,
            setBy locks path ⟨path, .read, owner, now, timeout⟩)
        ∧ lookupBy (setBy locks path ⟨path, .read, owner, now, timeout⟩) path
            = some ⟨path, .read, owner, now, timeout⟩
        ∧ ∀ q, q ≠ path →
            lookupBy (setBy locks path ⟨path, .read, owner, now, timeout⟩) q
              = lookupBy locks q)
    ∧ (∀ ex, lookupBy locks path = some ex → ex.type = .read →
        lockType = .write →
        AcquireLock locks path owner lockType timeout now =
          (.error ("path is read-locked by " ++ ex.owner), locks)) := by
  refine ⟨?_, ?_, ?_, ?_⟩
  · intro hnone
    unfold AcquireLock
    rw [hnone]
  · intro ex hsome hw
    unfold AcquireLock
    rw [hsome]
    simp [hw]
  · intro ex hsome hr hreq
    subst hreq
    unfold AcquireLock
    rw [hsome]
    have hw : ex.type ≠ ELockType.write := by
      rw [hr]; intro hc; cases hc
    refine ⟨by simp [hw], lookupBy_setBy_self locks path _, ?_⟩
    intro q hq
    exact lookupBy_setBy_ne locks path _ q hq
  · intro ex hsome hr hreq
    subst hreq
    unfold AcquireLock
    rw [hsome]
    have hw : ex.type ≠ ELockType.write := by
      rw [hr]; intro hc; cases hc
    simp [hw]

/-- C6 witness: concrete runs of all four acquisition rules. -/
theorem AcquireLock_rules_app :
    AcquireLock [] "p" "alice" .read 5 10 =
      (.ok ⟨"p", .read, "alice", 10, 5⟩,
        [("p", ⟨"p", .read, "alice", 10, 5⟩)])
    ∧ AcquireLock [("p", ⟨"p", .write, "alice", 0, 0⟩)] "p" "bob" .read 5 10 =
      (.error "path is write-locked by alice",
        [("p", ⟨"p", .write, "alice", 0, 0⟩)])
    ∧ AcquireLock [("p", ⟨"p", .read, "alice", 0, 0⟩)] "p" "bob" .read 5 10 =
      (.ok ⟨"p", .read, "bob", 10, 5⟩, [("p", ⟨"p", .read, "bob", 10, 5⟩)])
    ∧ AcquireLock [("p", ⟨"p", .read, "alice", 0, 0⟩)] "p" "bob" .write 5 10 =
      (.error "path is read-locked by alice",
        [("p", ⟨"p", .read, "alice", 0, 0⟩)]) :=
  ⟨(AcquireLock_rules [] "p" "alice" .read 5 10).1 (by decide),
   by
    have h := (AcquireLock_rules [("p", ⟨"p", .write, "alice", 0, 0⟩)]
      "p" "bob" ELockType.read 5 10).2.1 ⟨"p", .write, "alice", 0, 0⟩
      (by decide) (by decide)
    simpa using h,
   by
    have h := ((AcquireLock_rules [("p", ⟨"p", .read, "alice", 0, 0⟩)]
      "p" "bob" ELockType.read 5 10).2.2.1 ⟨"p", .read, "alice", 0, 0⟩
      (by decide) (by decide) rfl).1
    simpa using h,
   by
    have h := (AcquireLock_rules [("p", ⟨"p", .read, "alice", 0, 0⟩)]
      "p" "bob" ELockType.write 5 10).2.2.2 ⟨"p", .read, "alice", 0, 0⟩
      (by decide) (by decide) rfl
    simpa using h⟩

/-- C7, release and expiry sweep rules.  ReleaseLock: not-found error
when no entry exists, not-owner error when the recorded owner differs
(both leave the tables intact and wake nobody); otherwise the entry is
removed and every waiter registered for the path is woken (broadcast).
CleanupExpiredLocks keeps exactly the locks that are not expired
(age over a positive timeout), locks with timeout 0 always survive, and
the woken waiters are exactly those registered for a path holding an
expired lock. -/
theorem ReleaseLock_Cleanup_rules (locks : List (String × ELockInfo))
    (waiters : List (String × List Nat)) (path owner : String) (now : Nat) :
    (lookupBy locks path = none →
      ReleaseLock locks waiters path owner =
        (.error ("no lock found for path " ++ path), locks, waiters, []))
    ∧ (∀ lk, lookupBy locks path = some lk → lk.owner ≠ owner →
        ReleaseLock locks waiters path owner =
          (.error ("lock is owned by " ++ lk.owner ++ ", not " ++ owner),
            locks, waiters, []))
    ∧ (∀ lk, lookupBy locks path = some lk → lk.owner = owner →
        ReleaseLock locks waiters path owner =
          (.ok (), removeBy locks path, removeBy waiters path,
            (lookupBy waiters path).getD [])
        ∧ lookupBy (removeBy locks path) path = none
        ∧ (∀ q, q ≠ path →
            lookupBy (removeBy locks path) q = lookupBy locks q)
        ∧ (∀ ws, lookupBy waiters path = some ws →
            (ReleaseLock locks waiters path owner).2.2.2 = ws))
    ∧ (∀ p lk, (p, lk) ∈ (CleanupExpiredLocks now locks waiters).1 ↔
        (p, lk) ∈ locks ∧ lockExpired now lk = false)
    ∧ (∀ p lk, (p, lk) ∈ locks → lk.timeout = 0 →
        (p, lk) ∈ (CleanupExpiredLocks now locks waiters).1)
    ∧ (∀ wid, wid ∈ (CleanupExpiredLocks now locks waiters).2.2 ↔
        ∃ p ws, (p, ws) ∈ waiters ∧ wid ∈ ws
          ∧ ∃ lk, (p, lk) ∈ locks ∧ lockExpired now lk = true) := by
  refine ⟨?_, ?_, ?_, ?_, ?_, ?_⟩
  · intro hnone
    unfold ReleaseLock
    rw [hnone]
  · intro lk hsome hown
    unfold ReleaseLock
    rw [hsome]
    simp [hown]
  · intro lk hsome hown
    have hrel : ReleaseLock locks waiters path owner =
        (.ok (), removeBy locks path, removeBy waiters path,
          (lookupBy waiters path).getD []) := by
      unfold ReleaseLock
      rw [hsome]
      simp [hown]
    refine ⟨hrel, lookupBy_removeBy_self locks path, ?_, ?_⟩
    · intro q hq
      exact lookupBy_removeBy_ne locks path q hq
    · intro ws hws
      rw [hrel, hws]
      rfl
  · intro p lk
    unfold CleanupExpiredLocks
    simp [List.mem_filter]
  · intro p lk hmem hto
    unfold CleanupExpiredLocks
    simp only [List.mem_filter]
    refine ⟨hmem, ?_⟩
    simp [lockExpired, hto]
  · intro wid
    unfold CleanupExpiredLocks
    simp only [List.mem_flatMap, List.mem_filter, List.mem_map,
      decide_eq_true_eq]
    constructor
    · rintro ⟨⟨p, ws⟩, ⟨hmem, ⟨⟨e1, e2⟩, ⟨helocks, hexp⟩, hep⟩⟩, hwid⟩
      refine ⟨p, ws, hmem, hwid, e2, ?_, hexp⟩
      have hp : e1 = p := hep
      rw [← hp]
      exact helocks
    · rintro ⟨p, ws, hmem, hwid, lk, hlk, hexp⟩
      exact ⟨⟨p, ws⟩, ⟨hmem, ⟨(p, lk), ⟨hlk, hexp⟩, rfl⟩⟩, hwid⟩

/-- C7 witness: concrete runs of the release rules and the sweep. -/
theorem ReleaseLock_Cleanup_rules_app :
    ReleaseLock [] [("p", [7])] "p" "alice" =
      (.error "no lock found for path p", [], [("p", [7])], [])
    ∧ ReleaseLock [("p", ⟨"p", .write, "alice", 0, 0⟩)] [("p", [7, 8])]
        "p" "bob" =
      (.error "lock is owned by alice, not bob",
        [("p", ⟨"p", .write, "alice", 0, 0⟩)], [("p", [7, 8])], [])
    ∧ ReleaseLock [("p", ⟨"p", .write, "alice", 0, 0⟩)] [("p", [7, 8])]
        "p" "alice" = (.ok (), [], [], [7, 8])
    ∧ ("q", (⟨"q", .read, "carol", 0, 0⟩ : ELockInfo)) ∈
        (CleanupExpiredLocks 100
          [("p", ⟨"p", .write, "alice", 0, 3⟩),
           ("q", ⟨"q", .read, "carol", 0, 0⟩)] [("p", [7])]).1
    ∧ 7 ∈ (CleanupExpiredLocks 100
          [("p", ⟨"p", .write, "alice", 0, 3⟩),
           ("q", ⟨"q", .read, "carol", 0, 0⟩)] [("p", [7])]).2.2 := by
  refine ⟨?_, ?_, ?_, ?_, ?_⟩
  · exact (ReleaseLock_Cleanup_rules [] [("p", [7])] "p" "alice" 0).1
      (by decide)
  · have h := (ReleaseLock_Cleanup_rules
      [("p", ⟨"p", .write, "alice", 0, 0⟩)] [("p", [7, 8])] "p" "bob" 0).2.1
      ⟨"p", .write, "alice", 0, 0⟩ (by decide) (by decide)
    simpa using h
  · have h := ((ReleaseLock_Cleanup_rules
      [("p", ⟨"p", .write, "alice", 0, 0⟩)] [("p", [7, 8])] "p" "alice" 0).2.2.1
      ⟨"p", .write, "alice", 0, 0⟩ (by decide) rfl).1
    simpa [removeBy] using h
  · exact ((ReleaseLock_Cleanup_rules
      [("p", ⟨"p", .write, "alice", 0, 3⟩),
       ("q", ⟨"q", .read, "carol", 0, 0⟩)] [("p", [7])] "x" "y" 100).2.2.2.2.1
      "q" ⟨"q", .read, "carol", 0, 0⟩ (by decide) rfl)
  · exact ((ReleaseLock_Cleanup_rules
      [("p", ⟨"p", .write, "alice", 0, 3⟩),
       ("q", ⟨"q", .read, "carol", 0, 0⟩)] [("p", [7])] "x" "y" 100).2.2.2.2.2
      7).mpr ⟨"p", [7], by decide, by decide,
        ⟨"p", .write, "alice", 0, 3⟩, by decide, by decide⟩

/-! ## Version store (createVersion / ListVersions / GetVersion /
DeleteVersion / pruneVersions)

Version IDs are fresh unique strings (uuids) and creation times are
taken from a strictly increasing clock; both are modelled by the single
counter `next` (the id and the creation time of the i-th snapshot are
both `i`).  A version is a metadata record (the `.json` file) plus a
content blob (the `.data` file) keyed by the id. -/

/-- VersionInfo of the version store (id and creation time as counter
values, plus the snapshotted size). -/
structure VRec where
  versionID : Nat
  createdAt : Nat
  size : Nat
deriving DecidableEq, Repr

/-- Per-path version store: metadata records, content blobs keyed by
version id, and the id/clock counter. -/
structure VStore where
  recs : List VRec
  blobs : List (Nat × List Nat)
  next : Nat
deriving DecidableEq, Repr

def emptyVStore : VStore := ⟨[], [], 0⟩

/-- Insertion step of the newest-first sort by creation time. -/
def insertDesc (v : VRec) : List VRec → List VRec
  | [] => [v]
  | w :: ws =>
    if w.createdAt ≤ v.createdAt then v :: w :: ws else w :: insertDesc v ws

/-- The sort of ListVersions: newest first by creation time (creation
times are distinct here, so any comparison sort yields this result). -/
def sortDesc : List VRec → List VRec
  | [] => []
  | v :: vs => insertDesc v (sortDesc vs)

/-- SimpleFS.ListVersions restricted to one path: read all metadata
records and sort them newest-first by creation time. -/
def ListVersions (st : VStore) : List VRec := sortDesc st.recs

/-- Finds the metadata record with the given version id. -/
def findRec : List VRec → Nat → Option VRec
  | [], _ => none
  | r :: rest, vid => if r.versionID = vid then some r else findRec rest vid

/-- SimpleFS.GetVersion: the metadata record and the content blob of the
id, or not-found. -/
def GetVersion (st : VStore) (vid : Nat) : Option (List Nat × VRec) :=
  match findRec st.recs vid with
  | none => none
  | some r =>
    match lookupBy st.blobs vid with
    | none => none
    | some d => some (d, r)

/-- SimpleFS.DeleteVersion: removes both the metadata record and the
content blob of the id. -/
def DeleteVersion (st : VStore) (vid : Nat) : VStore :=
  { recs := st.recs.filter (fun r => !(decide (r.versionID = vid))),
    blobs := st.blobs.filter (fun b => !(decide (b.1 = vid))),
    next := st.next }

/-- SimpleFS.pruneVersions: list (sorted newest-first); when the count
exceeds maxVersions, delete the versions at the tail of the sorted
listing, iterating from the last index downwards. -/
def pruneVersions (maxVersions : Nat) (st : VStore) : VStore :=
  if (ListVersions st).length ≤ maxVersions then st
  else
    (((ListVersions st).drop maxVersions).reverse).foldl
      (fun s r => DeleteVersion s r.versionID) st

/-- SimpleFS.createVersion restricted to one path: snapshot the current
content into a fresh record and blob, then prune when maxVersions is
positive. -/
def createVersion (maxVersions : Nat) (content : List Nat) (st : VStore) :
    VStore :=
  let vinfo : VRec := ⟨st.next, st.next, content.length⟩
  let st2 : VStore :=
    ⟨vinfo :: st.recs, (st.next, content) :: st.blobs, st.next + 1⟩
  if 0 < maxVersions then pruneVersions maxVersions st2 else st2

/-- The version-store effect of `n` sequential overwrites of an existing
file with versioning on: each write snapshots the prior content (here
the one-byte payload of the write counter) and prunes. -/
def writeCycles (maxVersions : Nat) : Nat → VStore
  | 0 => emptyVStore
  | n + 1 => createVersion maxVersions [n] (writeCycles maxVersions n)

/-- Strictly descending creation times, newest first. -/
def recsDescB : List VRec → Bool
  | [] => true
  | [_] => true
  | a :: b :: t => decide (b.createdAt < a.createdAt) && recsDescB (b :: t)

/-- The descending run `[t, t-1, ..., t-k+1]`. -/
def descFrom : Nat → Nat → List Nat
  | _, 0 => []
  | t, k + 1 => t :: descFrom (t - 1) k

theorem recsDescB_tail {a : VRec} {l : List VRec}
    (h : recsDescB (a :: l) = true) : recsDescB l = true := by
  cases l with
  | nil => rfl
  | cons b t =>
    unfold recsDescB at h
    exact (Bool.and_eq_true_iff.mp h).2

/-- A list already sorted newest-first is a fixed point of the sort. -/
theorem sortDesc_fixed :
    ∀ l : List VRec, recsDescB l = true → sortDesc l = l
  | [], _ => rfl
  | v :: vs, h => by
    have htail := sortDesc_fixed vs (recsDescB_tail h)
    unfold sortDesc
    rw [htail]
    cases vs with
    | nil => rfl
    | cons w ws =>
      unfold recsDescB at h
      have hlt := (Bool.and_eq_true_iff.mp h).1
      have hle : w.createdAt ≤ v.createdAt :=
        Nat.le_of_lt (of_decide_eq_true hlt)
      unfold insertDesc
      rw [if_pos hle]

theorem descFrom_length : ∀ (k t : Nat), (descFrom t k).length = k
  | 0, _ => rfl
  | k + 1, t => by
    unfold descFrom
    rw [List.length_cons, descFrom_length k (t - 1)]

theorem mem_descFrom : ∀ (k t i : Nat), k ≤ t + 1 →
    (i ∈ descFrom t k ↔ t + 1 - k ≤ i ∧ i ≤ t)
  | 0, t, i, _ => by
    unfold descFrom
    simp
    omega
  | k + 1, t, i, hk => by
    unfold descFrom
    rw [List.mem_cons]
    have ih := mem_descFrom k (t - 1) i (by omega)
    rw [ih]
    omega

theorem descFrom_mapRecs_desc (f : Nat → VRec) (hf : ∀ i, (f i).createdAt = i) :
    ∀ (k t : Nat), k ≤ t + 1 → recsDescB ((descFrom t k).map f) = true
  | 0, _, _ => rfl
  | 1, t, _ => rfl
  | k + 2, t, hk => by
    have ih := descFrom_mapRecs_desc f hf (k + 1) (t - 1) (by omega)
    have hshape : descFrom (t - 1) (k + 1) = (t - 1) :: descFrom (t - 1 - 1) k :=
      rfl
    rw [hshape, List.map_cons] at ih
    show recsDescB (f t :: f (t - 1) :: (descFrom (t - 1 - 1) k).map f) = true
    show (decide ((f (t - 1)).createdAt < (f t).createdAt)
      && recsDescB (f (t - 1) :: (descFrom (t - 1 - 1) k).map f)) = true
    rw [Bool.and_eq_true_iff]
    refine ⟨?_, ih⟩
    rw [decide_eq_true_iff, hf (t - 1), hf t]
    omega

theorem descFrom_drop : ∀ (k t : Nat), (descFrom t (k + 1)).drop k = [t - k]
  | 0, t => by
    show (t :: descFrom (t - 1) 0).drop 0 = [t - 0]
    rw [Nat.sub_zero]
    rfl
  | k + 1, t => by
    show (descFrom (t - 1) (k + 1)).drop k = [t - (k + 1)]
    rw [descFrom_drop k (t - 1)]
    congr 1
    omega

theorem descFrom_filter_out : ∀ (k t : Nat), k ≤ t →
    (descFrom t (k + 1)).filter (fun i => !(decide (i = t - k))) = descFrom t k
  | 0, t, _ => by
    show (t :: descFrom (t - 1) 0).filter (fun i => !(decide (i = t - 0))) = []
    rw [Nat.sub_zero]
    rw [show descFrom (t - 1) 0 = [] from rfl]
    rw [List.filter_cons]
    rw [show (!decide (t = t)) = false by simp]
    rw [if_neg (by simp)]
    rfl
  | k + 1, t, hk => by
    show (t :: (descFrom (t - 1) (k + 1))).filter
        (fun i => !(decide (i = t - (k + 1)))) = t :: descFrom (t - 1) k
    rw [List.filter_cons]
    have hne : t ≠ t - (k + 1) := by omega
    have heq : t - (k + 1) = t - 1 - k := by omega
    rw [heq] at hne ⊢
    rw [if_pos (by simp [hne])]
    rw [descFrom_filter_out k (t - 1) (by omega)]

theorem filter_map_comm {α β : Type} (l : List α) (f : α → β)
    (p : β → Bool) (q : α → Bool) (h : ∀ a, p (f a) = q a) :
    (l.map f).filter p = (l.filter q).map f := by
  induction l with
  | nil => rfl
  | cons a t ih =>
    rw [List.map_cons, List.filter_cons, List.filter_cons, h a]
    cases hq : q a with
    | true => simp [ih]
    | false => simpa using ih

theorem findRec_map_none (mk : Nat → VRec) (hmk : ∀ i, (mk i).versionID = i) :
    ∀ (l : List Nat) (v : Nat), v ∉ l → findRec (l.map mk) v = none := by
  intro l
  induction l with
  | nil => intro v _; rfl
  | cons a t ih =>
    intro v hv
    rw [List.map_cons]
    unfold findRec
    rw [hmk a]
    have hne : a ≠ v := fun hc => hv (hc ▸ List.mem_cons_self a t)
    rw [if_neg hne]
    exact ih v (fun hc => hv (List.mem_cons_of_mem a hc))

theorem findRec_map_mem (mk : Nat → VRec) (hmk : ∀ i, (mk i).versionID = i) :
    ∀ (l : List Nat) (v : Nat), v ∈ l → (findRec (l.map mk) v).isSome = true := by
  intro l
  induction l with
  | nil => intro v hv; simp at hv
  | cons a t ih =>
    intro v hv
    rw [List.map_cons]
    unfold findRec
    rw [hmk a]
    by_cases h : a = v
    · rw [if_pos h]; rfl
    · rw [if_neg h]
      rcases List.mem_cons.mp hv with h1 | h2
      · exact absurd h1.symm h
      · exact ih v h2

theorem lookupBy_map_mem {β : Type} [Inhabited β] (g : Nat → β) :
    ∀ (l : List Nat) (v : Nat), v ∈ l →
      (lookupBy (l.map (fun t => (t, g t))) v).isSome = true := by
  intro l
  induction l with
  | nil => intro v hv; simp at hv
  | cons a t ih =>
    intro v hv
    rw [List.map_cons]
    unfold lookupBy
    by_cases h : v = a
    · rw [if_pos h]; rfl
    · rw [if_neg h]
      rcases List.mem_cons.mp hv with h1 | h2
      · exact absurd h1 h
      · exact ih v h2

/-- The record written by the i-th snapshot (one-byte payload). -/
def cycleRec (t : Nat) : VRec := ⟨t, t, 1⟩

/-- Shape of the version store after `n` snapshot-and-prune cycles with
`maxVersions = K > 0`: exactly the newest `min K n` records, ids and
creation times descending from `n - 1`. -/
theorem writeCycles_shape (K : Nat) (hK : 0 < K) :
    ∀ n, writeCycles K n =
      ⟨(descFrom (n - 1) (min K n)).map cycleRec,
       (descFrom (n - 1) (min K n)).map (fun t => (t, [t])),
       n⟩
  | 0 => by
    unfold writeCycles
    simp [emptyVStore, descFrom]
  | n + 1 => by
    have ih := writeCycles_shape K hK n
    unfold writeCycles
    rw [ih]
    unfold createVersion
    rw [if_pos hK]
    have hcons : ∀ (g : Nat → VRec), g n :: (descFrom (n - 1) (min K n)).map g
        = (descFrom n (min K n + 1)).map g := by
      intro g
      rfl
    have hconsB : (n, ([n] : List Nat)) ::
        (descFrom (n - 1) (min K n)).map (fun t => (t, [t]))
        = (descFrom n (min K n + 1)).map (fun t => (t, [t])) := rfl
    show pruneVersions K
        ⟨(⟨n, n, 1⟩ : VRec) :: (descFrom (n - 1) (min K n)).map cycleRec,
         (n, [n]) :: (descFrom (n - 1) (min K n)).map (fun t => (t, [t])),
         n + 1⟩ = _
    have hrec : (⟨n, n, 1⟩ : VRec) = cycleRec n := rfl
    rw [hrec, hcons cycleRec, hconsB]
    unfold pruneVersions
    have hsorted : ListVersions
        ⟨(descFrom n (min K n + 1)).map cycleRec,
         (descFrom n (min K n + 1)).map (fun t => (t, [t])), n + 1⟩
        = (descFrom n (min K n + 1)).map cycleRec := by
      unfold ListVersions
      exact sortDesc_fixed _
        (descFrom_mapRecs_desc cycleRec (fun i => rfl) (min K n + 1) n
          (by omega))
    rw [hsorted]
    rw [List.length_map, descFrom_length]
    by_cases hcase : n < K
    · rw [if_pos (by omega)]
      have h1 : min K n = n := by omega
      have h2 : min K (n + 1) = n + 1 := by omega
      rw [h1, h2]
      rfl
    · rw [if_neg (by omega)]
      have h1 : min K n = K := by omega
      have h2 : min K (n + 1) = K := by omega
      rw [h1, h2]
      have hdrop : ((descFrom n (K + 1)).map cycleRec).drop K
          = [cycleRec (n - K)] := by
        rw [← List.map_drop, descFrom_drop]
        rfl
      rw [hdrop]
      show DeleteVersion
        ⟨(descFrom n (K + 1)).map cycleRec,
         (descFrom n (K + 1)).map (fun t => (t, [t])), n + 1⟩
        (cycleRec (n - K)).versionID = _
      unfold DeleteVersion
      have hfr : ((descFrom n (K + 1)).map cycleRec).filter
          (fun r => !(decide (r.versionID = (cycleRec (n - K)).versionID)))
          = (descFrom n K).map cycleRec := by
        rw [filter_map_comm _ cycleRec _
          (fun i => !(decide (i = n - K))) (fun a => rfl)]
        rw [descFrom_filter_out K n (by omega)]
      have hfb : ((descFrom n (K + 1)).map (fun t => (t, [t]))).filter
          (fun b => !(decide (b.1 = (cycleRec (n - K)).versionID)))
          = (descFrom n K).map (fun t => (t, ([t] : List Nat))) := by
        rw [filter_map_comm _ (fun t => (t, ([t] : List Nat))) _
          (fun i => !(decide (i = n - K))) (fun a => rfl)]
        rw [descFrom_filter_out K n (by omega)]
      simp only [hfr, hfb]
      rfl

/-- C4, version retention bound.  With `MaxVersions = K > 0`, after
`N > K` sequential snapshot-and-prune cycles (one per successful write
to an existing path): the listing has exactly `K` records sorted
newest-first by creation time; the oldest `N - K` version ids are not
retrievable via GetVersion while the newest `K` are; and after every
prune cycle the retained count never exceeds `K`. -/
theorem version_retention_bound (K N : Nat) (hK : 0 < K) (hN : K < N) :
    (ListVersions (writeCycles K N)).length = K
    ∧ recsDescB (ListVersions (writeCycles K N)) = true
    ∧ (∀ v, v < N - K → GetVersion (writeCycles K N) v = none)
    ∧ (∀ v, N - K ≤ v → v < N →
        (GetVersion (writeCycles K N) v).isSome = true)
    ∧ (∀ n, (writeCycles K n).recs.length ≤ K) := by
  have hsh := writeCycles_shape K hK N
  have hmin : min K N = K := by omega
  rw [hmin] at hsh
  have hlist : ListVersions (writeCycles K N) = (descFrom (N - 1) K).map cycleRec := by
    rw [hsh]
    unfold ListVersions
    exact sortDesc_fixed _
      (descFrom_mapRecs_desc cycleRec (fun i => rfl) K (N - 1) (by omega))
  refine ⟨?_, ?_, ?_, ?_, ?_⟩
  · rw [hlist, List.length_map, descFrom_length]
  · rw [hlist]
    exact descFrom_mapRecs_desc cycleRec (fun i => rfl) K (N - 1) (by omega)
  · intro v hv
    have hnot : v ∉ descFrom (N - 1) K := by
      intro hmem
      have := (mem_descFrom K (N - 1) v (by omega)).mp hmem
      omega
    unfold GetVersion
    rw [hsh]
    have hnone := findRec_map_none cycleRec (fun i => rfl) _ v hnot
    simp only at hnone
    rw [hnone]
  · intro v hv1 hv2
    have hmem : v ∈ descFrom (N - 1) K := by
      rw [mem_descFrom K (N - 1) v (by omega)]
      omega
    unfold GetVersion
    rw [hsh]
    have hfind := findRec_map_mem cycleRec (fun i => rfl) _ v hmem
    have hblob := lookupBy_map_mem (fun t => ([t] : List Nat)) _ v hmem
    simp only at hfind hblob
    cases hfr : findRec ((descFrom (N - 1) K).map cycleRec) v with
    | none => rw [hfr] at hfind; simp at hfind
    | some r =>
      simp only
      cases hlb : lookupBy ((descFrom (N - 1) K).map fun t => (t, [t])) v with
      | none => rw [hlb] at hblob; simp at hblob
      | some d => rfl
  · intro n
    rw [writeCycles_shape K hK n, List.length_map, descFrom_length]
    omega

/-- C4 witness: K = 2, N = 4: two retained records, ids 0 and 1 gone,
ids 2 and 3 retrievable. -/
theorem version_retention_bound_app :
    (ListVersions (writeCycles 2 4)).length = 2
    ∧ GetVersion (writeCycles 2 4) 0 = none
    ∧ GetVersion (writeCycles 2 4) 1 = none
    ∧ (GetVersion (writeCycles 2 4) 3).isSome = true :=
  ⟨(version_retention_bound 2 4 (by decide) (by decide)).1,
   (version_retention_bound 2 4 (by decide) (by decide)).2.2.1 0 (by decide),
   (version_retention_bound 2 4 (by decide) (by decide)).2.2.1 1 (by decide),
   (version_retention_bound 2 4 (by decide) (by decide)).2.2.2.1 3
     (by decide) (by decide)⟩

/-! ## Facade state and the mutation pipeline

The facade structure bundles the SimpleFS fields (rootPath, options,
hooks) with the state it manipulates: the host filesystem (files and
directories keyed by resolved segment paths), the journal contents, and
the per-path version stores.  `journalOk` models whether the journal
append I/O succeeds.  Locks are covered by the trace model above: the
sequential semantics here returns `blocked` on the branch where
createVersion re-enters the held write lock. -/

inductive FOp where
  | createDir
  | writeFile
  | readFile
  | listDir
  | deleteFile
  | deleteDir
  | copyFile
  | moveFile
  | setAttribute
  | getAttribute
  | getAllAttributes
  | deleteAttribute
  | createVersion
  | getVersion
  | listVersions
deriving DecidableEq, Repr

inductive HookPhase where
  | pre
  | post
deriving DecidableEq, Repr

/-- HookContext (the fields the mutation pipeline fills). -/
structure HCtx where
  op : FOp
  path : String
  srcPath : String
  data : List Nat
  mode : Nat

/-- HookFunc: a hook returns an error or nil. -/
def HookFn : Type := HCtx → Option String

/-- A stored file: content bytes and mode. -/
structure FileRec where
  content : List Nat
  mode : Nat
deriving DecidableEq, Repr

/-- JournalEntry (timestamp omitted, it never influences behaviour). -/
structure JEntry where
  operation : String
  path : String
  data : List Nat
  attributes : List (String × String)
deriving DecidableEq, Repr

structure FS where
  rootPath : List String
  files : List (List String × FileRec)
  dirs : List (List String)
  journaling : Bool
  journalOk : Bool
  journal : List JEntry
  versioning : Bool
  maxVersions : Nat
  versions : List (String × VStore)
  hooks : List ((FOp × HookPhase) × List HookFn)

/-- Runs a hook list in order, propagating the first error. -/
def runHookList : List HookFn → HCtx → Option String
  | [], _ => none
  | h :: hs, ctx =>
    match h ctx with
    | some e => some e
    | none => runHookList hs ctx

/-- The hooks registered for an operation and phase. -/
def hooksFor (fs : FS) (op : FOp) (phase : HookPhase) : List HookFn :=
  (lookupBy fs.hooks (op, phase)).getD []

/-- SimpleFS.executeHooks: look up the (operation, phase) key and run
the registered hooks in order, short-circuiting on the first error. -/
def executeHooks (fs : FS) (phase : HookPhase) (ctx : HCtx) : Option String :=
  runHookList (hooksFor fs ctx.op phase) ctx

/-- The non-empty initial runs of a segment path: all directories
os.MkdirAll creates (or finds) on the way down. -/
def ancestors (p : List String) : List (List String) :=
  (List.range p.length).map (fun i => p.take (i + 1))

/-- os.MkdirAll on the directory set. -/
def mkdirAll (dirs : List (List String)) (p : List String) :
    List (List String) :=
  dirs ++ ancestors p

/-- os.Stat succeeds: a file or a directory exists at the resolved
path (used by SimpleFS.FileExists). -/
def fileExistsAt (fs : FS) (full : List String) : Bool :=
  (lookupBy fs.files full).isSome || decide (full ∈ fs.dirs)

def isDirAt (fs : FS) (full : List String) : Bool :=
  decide (full ∈ fs.dirs)

inductive Outcome (α : Type) where
  | ok (a : α)
  | err (e : String)
  | blocked
deriving DecidableEq, Repr

def writeCtx (path : String) (data : List Nat) (mode : Nat) : HCtx :=
  ⟨.writeFile, path, "", data, mode⟩

def cvCtx (path : String) : HCtx := ⟨.createVersion, path, "", [], 0⟩

def readCtx (path : String) : HCtx := ⟨.readFile, path, "", [], 0⟩

/-- Journal.Log from the facade: with journaling enabled, append the
entry durably or fail; with journaling disabled, do nothing. -/
def journalLog (fs : FS) (e : JEntry) : Except String FS :=
  if fs.journaling then
    if fs.journalOk then .ok { fs with journal := fs.journal ++ [e] }
    else .error "failed to write to journal"
  else .ok fs

/-- The state after the unconditional os.MkdirAll of the parent
directory chain at the start of WriteFileWithMode. -/
def afterMkdir (fs : FS) (full : List String) : FS :=
  { fs with dirs := mkdirAll fs.dirs full.dropLast }

/-- The state after os.WriteFile of the payload. -/
def applyWrite (fs : FS) (full : List String) (data : List Nat) (mode : Nat) :
    FS :=
  { fs with files := setBy fs.files full ⟨data, mode⟩ }

/-- SimpleFS.WriteFileWithMode: resolve the path; create the parent
directories; (take the write lock); run pre-hooks; with versioning on
and an existing target, createVersion runs its own pre-hooks, rejects
directories, and then calls ReadFile on the same path under the held
write lock, which blocks forever (see the trace model); otherwise
journal the write and apply it; run post-hooks. -/
def WriteFileWithMode (fs : FS) (path : String) (data : List Nat)
    (mode : Nat) : Outcome Unit × FS :=
  match fullPathStr fs.rootPath path with
  | .error e => (.err e, fs)
  | .ok full =>
    match executeHooks (afterMkdir fs full) .pre (writeCtx path data mode) with
    | some e => (.err e, afterMkdir fs full)
    | none =>
      if (afterMkdir fs full).versioning
          && fileExistsAt (afterMkdir fs full) full then
        match executeHooks (afterMkdir fs full) .pre (cvCtx path) with
        | some e =>
          (.err ("failed to create version: " ++ e), afterMkdir fs full)
        | none =>
          if isDirAt (afterMkdir fs full) full then
            (.err "failed to create version: cannot version a directory",
              afterMkdir fs full)
          else (.blocked, afterMkdir fs full)
      else
        match journalLog (afterMkdir fs full)
            ⟨"write", path, data, [("mode", toString mode)]⟩ with
        | .error e => (.err ("failed to log file write: " ++ e),
            afterMkdir fs full)
        | .ok fs2 =>
          match executeHooks (applyWrite fs2 full data mode) .post
              (writeCtx path data mode) with
          | some e => (.err e, applyWrite fs2 full data mode)
          | none => (.ok (), applyWrite fs2 full data mode)

/-- SimpleFS.WriteFile: WriteFileWithMode with mode 0644. -/
def WriteFile (fs : FS) (path : String) (data : List Nat) :
    Outcome Unit × FS :=
  WriteFileWithMode fs path data 420

/-- SimpleFS.ReadFile: resolve, (take the read lock), run pre-hooks,
read the file, run post-hooks. -/
def ReadFile (fs : FS) (path : String) : Outcome (List Nat) × FS :=
  match fullPathStr fs.rootPath path with
  | .error e => (.err e, fs)
  | .ok full =>
    match executeHooks fs .pre (readCtx path) with
    | some e => (.err e, fs)
    | none =>
      match lookupBy fs.files full with
      | none => (.err "file does not exist", fs)
      | some r =>
        match executeHooks fs .post (readCtx path) with
        | some e => (.err e, fs)
        | none => (.ok r.content, fs)

theorem runHookList_isSome_of_mem (ctx : HCtx) :
    ∀ (hs1 : List HookFn) (h : HookFn) (hs2 : List HookFn),
      (h ctx).isSome = true →
      (runHookList (hs1 ++ h :: hs2) ctx).isSome = true
  | [], h, hs2, hsome => by
    rw [List.nil_append]
    unfold runHookList
    cases hx : h ctx with
    | none => rw [hx] at hsome; simp at hsome
    | some e => rfl
  | h1 :: hs1, h, hs2, hsome => by
    rw [List.cons_append]
    unfold runHookList
    cases hx : h1 ctx with
    | none => exact runHookList_isSome_of_mem ctx hs1 h hs2 hsome
    | some e => rfl

theorem runHookList_first_fail (ctx : HCtx) :
    ∀ (hs1 : List HookFn) (h : HookFn) (hs2 : List HookFn) (e0 : String),
      (∀ h2 ∈ hs1, h2 ctx = none) → h ctx = some e0 →
      runHookList (hs1 ++ h :: hs2) ctx = some e0
  | [], h, hs2, e0, _, hfail => by
    rw [List.nil_append]
    unfold runHookList
    rw [hfail]
  | h1 :: hs1, h, hs2, e0, hok, hfail => by
    rw [List.cons_append]
    unfold runHookList
    rw [hok h1 (List.mem_cons_self h1 hs1)]
    exact runHookList_first_fail ctx hs1 h hs2 e0
      (fun h2 hm => hok h2 (List.mem_cons_of_mem h1 hm)) hfail

/-- C3, hook veto atomicity.  If some registered pre-hook for the write
operation errors on every context, then WriteFileWithMode on any
resolvable path fails, appends no journal entry, leaves the file
contents (and versions) unchanged; and when the hooks registered before
it pass, the returned error is exactly that hook's error. -/
theorem write_hook_veto (fs : FS) (path : String) (data : List Nat)
    (mode : Nat) (full : List String) (h : HookFn) (hs1 hs2 : List HookFn)
    (hres : fullPathStr fs.rootPath path = .ok full)
    (hreg : hooksFor fs .writeFile .pre = hs1 ++ h :: hs2)
    (halways : ∀ c, (h c).isSome = true) :
    (∃ e, (WriteFileWithMode fs path data mode).1 = .err e)
    ∧ (WriteFileWithMode fs path data mode).2.files = fs.files
    ∧ (WriteFileWithMode fs path data mode).2.journal = fs.journal
    ∧ (WriteFileWithMode fs path data mode).2.versions = fs.versions
    ∧ (∀ e0, (∀ h2 ∈ hs1, h2 (writeCtx path data mode) = none) →
        h (writeCtx path data mode) = some e0 →
        (WriteFileWithMode fs path data mode).1 = .err e0) := by
  have hhooks : executeHooks (afterMkdir fs full) .pre
      (writeCtx path data mode)
      = runHookList (hs1 ++ h :: hs2) (writeCtx path data mode) := by
    show runHookList (hooksFor fs .writeFile .pre) (writeCtx path data mode)
      = runHookList (hs1 ++ h :: hs2) (writeCtx path data mode)
    rw [hreg]
  have hsome := runHookList_isSome_of_mem (writeCtx path data mode) hs1 h hs2
    (halways (writeCtx path data mode))
  rw [← hhooks] at hsome
  cases hx : executeHooks (afterMkdir fs full) .pre (writeCtx path data mode)
    with
  | none => rw [hx] at hsome; simp at hsome
  | some e =>
    have hrun : WriteFileWithMode fs path data mode =
        (.err e, afterMkdir fs full) := by
      unfold WriteFileWithMode
      rw [hres]
      simp only [hx]
    refine ⟨⟨e, by rw [hrun]⟩, by rw [hrun]; rfl, by rw [hrun]; rfl,
      by rw [hrun]; rfl, ?_⟩
    intro e0 hpass hfail
    have he0 : runHookList (hs1 ++ h :: hs2) (writeCtx path data mode)
        = some e0 :=
      runHookList_first_fail (writeCtx path data mode) hs1 h hs2 e0 hpass hfail
    rw [← hhooks, hx] at he0
    have he : e = e0 := by simpa using he0
    rw [hrun, he]

/-- Concrete state for the C3 witness: one always-rejecting pre-hook on
the write operation. -/
def c3State : FS :=
  { rootPath := ["data"], files := [(["data", "a.txt"], ⟨[1, 2], 420⟩)],
    dirs := [["data"]],
    journaling := true, journalOk := true, journal := [],
    versioning := false, maxVersions := 10, versions := [],
    hooks := [((.writeFile, .pre), [fun _ => some "rejected"])] }

/-- C3 witness: the vetoed write fails with the hook's error and leaves
content and journal unchanged. -/
theorem write_hook_veto_app :
    (WriteFileWithMode c3State "a.txt" [9] 420).1 = .err "rejected"
    ∧ (WriteFileWithMode c3State "a.txt" [9] 420).2.files = c3State.files
    ∧ (WriteFileWithMode c3State "a.txt" [9] 420).2.journal
        = c3State.journal := by
  have h := write_hook_veto c3State "a.txt" [9] 420 ["data", "a.txt"]
    (fun _ => some "rejected") [] [] (by decide) rfl (fun c => rfl)
  exact ⟨h.2.2.2.2 "rejected" (fun h2 hm => absurd hm (List.not_mem_nil h2))
    rfl, h.2.1, h.2.2.1⟩

theorem journalLog_ok_fields (fs : FS) (e : JEntry) (fs2 : FS)
    (h : journalLog fs e = .ok fs2) :
    fs2.rootPath = fs.rootPath ∧ fs2.files = fs.files
      ∧ fs2.dirs = fs.dirs ∧ fs2.versions = fs.versions := by
  unfold journalLog at h
  by_cases hj : fs.journaling
  · rw [if_pos hj] at h
    by_cases hok : fs.journalOk
    · rw [if_pos hok] at h
      have : { fs with journal := fs.journal ++ [e] } = fs2 := by
        simpa using h
      rw [← this]
      exact ⟨rfl, rfl, rfl, rfl⟩
    · rw [if_neg hok] at h
      exact absurd h (by simp)
  · rw [if_neg hj] at h
    have : fs = fs2 := by simpa using h
    rw [← this]
    exact ⟨rfl, rfl, rfl, rfl⟩

/-- A successful WriteFileWithMode resolved a path, journaled, and wrote
the payload: the final state is `applyWrite` of the journaled state. -/
theorem WriteFileWithMode_ok_shape (fs : FS) (path : String)
    (data : List Nat) (mode : Nat)
    (hok : (WriteFileWithMode fs path data mode).1 = .ok ()) :
    ∃ full fs2, fullPathStr fs.rootPath path = .ok full
      ∧ journalLog (afterMkdir fs full)
          ⟨"write", path, data, [("mode", toString mode)]⟩ = .ok fs2
      ∧ (WriteFileWithMode fs path data mode).2
          = applyWrite fs2 full data mode := by
  cases hres : fullPathStr fs.rootPath path with
  | error e =>
    unfold WriteFileWithMode at hok
    rw [hres] at hok
    simp at hok
  | ok full =>
    unfold WriteFileWithMode at hok
    rw [hres] at hok
    simp only at hok
    cases hpre : executeHooks (afterMkdir fs full) .pre
        (writeCtx path data mode) with
    | some e => rw [hpre] at hok; simp at hok
    | none =>
      rw [hpre] at hok
      simp only at hok
      by_cases hver : ((afterMkdir fs full).versioning
          && fileExistsAt (afterMkdir fs full) full) = true
      · rw [if_pos hver] at hok
        cases hcv : executeHooks (afterMkdir fs full) .pre (cvCtx path) with
        | some e => rw [hcv] at hok; simp at hok
        | none =>
          rw [hcv] at hok
          simp only at hok
          by_cases hdir : isDirAt (afterMkdir fs full) full = true
          · rw [if_pos hdir] at hok; simp at hok
          · rw [if_neg hdir] at hok; simp at hok
      · rw [if_neg hver] at hok
        cases hj : journalLog (afterMkdir fs full)
            ⟨"write", path, data, [("mode", toString mode)]⟩ with
        | error e => rw [hj] at hok; simp at hok
        | ok fs2 =>
          rw [hj] at hok
          simp only at hok
          cases hpost : executeHooks (applyWrite fs2 full data mode) .post
              (writeCtx path data mode) with
          | some e => rw [hpost] at hok; simp at hok
          | none =>
            have hrun : WriteFileWithMode fs path data mode
                = (.ok (), applyWrite fs2 full data mode) := by
              unfold WriteFileWithMode
              rw [hres]
              simp only [hpre]
              rw [if_neg hver]
              simp only [hj, hpost]
            exact ⟨full, fs2, rfl, hj, by rw [hrun]⟩

/-- C8, write-read round trip.  After a successful WriteFile of bytes
`data` to `path`, with no intervening mutation and with the read hooks
not erroring, ReadFile on the same path returns exactly `data` and
leaves the state untouched. -/
theorem write_read_roundtrip (fs : FS) (path : String) (data : List Nat)
    (hok : (WriteFile fs path data).1 = .ok ())
    (hpre : executeHooks (WriteFile fs path data).2 .pre (readCtx path)
      = none)
    (hpost : executeHooks (WriteFile fs path data).2 .post (readCtx path)
      = none) :
    ReadFile (WriteFile fs path data).2 path
      = (.ok data, (WriteFile fs path data).2) := by
  obtain ⟨full, fs2, hres, hj, hfinal⟩ :=
    WriteFileWithMode_ok_shape fs path data 420 hok
  have hfields := journalLog_ok_fields _ _ _ hj
  have hroot : (WriteFile fs path data).2.rootPath = fs.rootPath := by
    rw [show (WriteFile fs path data).2
      = (WriteFileWithMode fs path data 420).2 from rfl, hfinal]
    exact hfields.1
  have hfiles : (WriteFile fs path data).2.files
      = setBy fs2.files full ⟨data, 420⟩ := by
    rw [show (WriteFile fs path data).2
      = (WriteFileWithMode fs path data 420).2 from rfl, hfinal]
    rfl
  unfold ReadFile
  rw [hroot, hres]
  simp only [hpre]
  rw [hfiles, lookupBy_setBy_self]
  simp only [hpost]

/-- Concrete state for the C8 witness. -/
def c8State : FS :=
  { rootPath := ["data"], files := [], dirs := [["data"]],
    journaling := true, journalOk := true, journal := [],
    versioning := false, maxVersions := 10, versions := [], hooks := [] }

/-- C8 witness: writing then reading two bytes round-trips. -/
theorem write_read_roundtrip_app :
    ReadFile (WriteFile c8State "x.txt" [7, 8]).2 "x.txt"
      = (.ok [7, 8], (WriteFile c8State "x.txt" [7, 8]).2) :=
  write_read_roundtrip c8State "x.txt" [7, 8] (by decide) (by decide)
    (by decide)

/-- C9, vetoed writes still create parent directories.  The parent
directory chain is created before the per-path lock and before the
pre-hooks; so when the write is rejected by a pre-hook, or aborted by a
journal-append failure (reachable only when the versioning branch is
not taken: with versioning on and an existing target the operation
blocks earlier and never reaches the journal), every parent directory
of the target exists afterwards, and the files, journal, versions and
hooks are unchanged — the directory set is exactly the old one plus the
parent chain. -/
theorem vetoed_write_creates_parents (fs : FS) (path : String)
    (data : List Nat) (mode : Nat) (full : List String)
    (hres : fullPathStr fs.rootPath path = .ok full)
    (habort :
      (∃ e, executeHooks (afterMkdir fs full) .pre (writeCtx path data mode)
        = some e)
      ∨ (executeHooks (afterMkdir fs full) .pre (writeCtx path data mode)
          = none
        ∧ fs.journaling = true ∧ fs.journalOk = false
        ∧ ((afterMkdir fs full).versioning
            && fileExistsAt (afterMkdir fs full) full) = false)) :
    (∃ e, (WriteFileWithMode fs path data mode).1 = .err e)
    ∧ (∀ q ∈ ancestors full.dropLast,
        q ∈ (WriteFileWithMode fs path data mode).2.dirs)
    ∧ (∀ d ∈ fs.dirs, d ∈ (WriteFileWithMode fs path data mode).2.dirs)
    ∧ (WriteFileWithMode fs path data mode).2.files = fs.files
    ∧ (WriteFileWithMode fs path data mode).2.journal = fs.journal
    ∧ (WriteFileWithMode fs path data mode).2.versions = fs.versions
    ∧ (WriteFileWithMode fs path data mode).2.dirs
        = mkdirAll fs.dirs full.dropLast := by
  have hstate : ∃ e, WriteFileWithMode fs path data mode
      = (.err e, afterMkdir fs full) := by
    rcases habort with ⟨e, hpre⟩ | ⟨hpre, hj, hjok, hver⟩
    · refine ⟨e, ?_⟩
      unfold WriteFileWithMode
      rw [hres]
      simp only [hpre]
    · refine ⟨"failed to log file write: " ++ "failed to write to journal", ?_⟩
      unfold WriteFileWithMode
      rw [hres]
      simp only [hpre]
      rw [if_neg (by simp [hver])]
      have hlog : journalLog (afterMkdir fs full)
          ⟨"write", path, data, [("mode", toString mode)]⟩
          = .error "failed to write to journal" := by
        unfold journalLog
        have hj2 : (afterMkdir fs full).journaling = true := hj
        have hjok2 : (afterMkdir fs full).journalOk = false := hjok
        rw [if_pos hj2, if_neg (by simp [hjok2])]
      rw [hlog]
  obtain ⟨e, hrun⟩ := hstate
  refine ⟨⟨e, by rw [hrun]⟩, ?_, ?_, by rw [hrun]; rfl, by rw [hrun]; rfl,
    by rw [hrun]; rfl, by rw [hrun]; rfl⟩
  · intro q hq
    rw [hrun]
    show q ∈ mkdirAll fs.dirs full.dropLast
    exact List.mem_append.mpr (Or.inr hq)
  · intro d hd
    rw [hrun]
    show d ∈ mkdirAll fs.dirs full.dropLast
    exact List.mem_append.mpr (Or.inl hd)

/-- Concrete state for the C9 witness: journaling on but the append
fails. -/
def c9State : FS :=
  { rootPath := ["data"], files := [], dirs := [["data"]],
    journaling := true, journalOk := false, journal := [],
    versioning := false, maxVersions := 10, versions := [], hooks := [] }

/-- C9 witness: the aborted write still created both missing parent
directories and changed nothing else. -/
theorem vetoed_write_creates_parents_app :
    (∃ e, (WriteFileWithMode c9State "sub/dir/f.txt" [1] 420).1 = .err e)
    ∧ ["data", "sub"] ∈ (WriteFileWithMode c9State "sub/dir/f.txt" [1] 420).2.dirs
    ∧ ["data", "sub", "dir"] ∈
        (WriteFileWithMode c9State "sub/dir/f.txt" [1] 420).2.dirs
    ∧ (WriteFileWithMode c9State "sub/dir/f.txt" [1] 420).2.files
        = c9State.files
    ∧ (WriteFileWithMode c9State "sub/dir/f.txt" [1] 420).2.journal
        = c9State.journal := by
  have h := vetoed_write_creates_parents c9State "sub/dir/f.txt" [1] 420
    ["data", "sub", "dir", "f.txt"] (by decide)
    (Or.inr ⟨by decide, rfl, rfl, by decide⟩)
  exact ⟨h.1, h.2.1 ["data", "sub"] (by decide),
    h.2.1 ["data", "sub", "dir"] (by decide), h.2.2.2.1, h.2.2.2.2.1⟩

/-- The concrete C5 state: Root=/data, a.txt currently "v1" (written
before versioning was enabled), versioning now on with MaxVersions=2,
journaling on, no hooks. -/
def c5State : FS :=
  { rootPath := ["data"],
    files := [(["data", "a.txt"], ⟨[118, 49], 420⟩)],
    dirs := [["data"]],
    journaling := true, journalOk := true, journal := [],
    versioning := true, maxVersions := 2, versions := [], hooks := [] }

/-- C5, concrete versioning scenario.  The very first versioned
overwrite (writing "v2" over the existing "v1") never completes: the
sequential semantics reaches the createVersion branch and blocks
(createVersion calls ReadFile on the path whose write lock
WriteFileWithMode holds, shown by the lock trace), so the claimed final
state (two retained snapshots, read returns "v4") is unreachable; the
file still reads "v1". -/
theorem versioned_overwrite_blocks :
    (WriteFile c5State "a.txt" [118, 50]).1 = .blocked
    ∧ runTrace (writeFileTrace "journal-mu" "/data/a.txt" true true) freeEnv
        = none
    ∧ (ReadFile c5State "a.txt").1 = .ok [118, 49] := by
  refine ⟨by decide, by rfl, by decide⟩

end SimpleFS
